import Mathlib

/-! # Verification of the declarative style-composition core

Shallow embedding of the style-dictionary and CSS-class-generator code of the
repository (files `04_style_dictionaries.py` and `06_css_class_generator.py`),
together with a model of the element-tree serializer described by the
specification. Python insertion-ordered dicts are embedded as ordered
key/value pair lists: dict assignment keeps the position of an existing key
and appends a fresh one, exactly as Python dicts do. -/

/-- Python dict assignment `d[k] = v` on an insertion-ordered dict embedded as
a pair list: replaces the value of `k` in place when `k` is present, appends
the new binding otherwise. -/
def dictUpdate {α : Type} : List (String × α) → String → α → List (String × α)
  | [], k, v => [(k, v)]
  | (k', v') :: rest, k, v =>
    if k' = k then (k, v) :: rest else (k', v') :: dictUpdate rest k v

/-- Python dict lookup `d[k]`: the binding of `k`, if any (first match; dicts
built by `dictUpdate` bind each key at most once). -/
def dictLookup {α : Type} : List (String × α) → String → Option α
  | [], _ => none
  | (k', v) :: rest, k => if k' = k then some v else dictLookup rest k

/-- Python `result.update(d)`: assigns every pair of `d` into `result`, in
order. -/
def dictUpdateMany {α : Type} (result d : List (String × α)) : List (String × α) :=
  d.foldl (fun acc kv => dictUpdate acc kv.1 kv.2) result

/-- A style declaration: an insertion-ordered mapping from CSS property names
to value strings (a Python dict with string keys and values). -/
abbrev Styles := List (String × String)

/-- Python `sep.join(parts)`. -/
def strJoin (sep : String) : List String → String
  | [] => ""
  | [s] => s
  | s :: s₂ :: rest => s ++ sep ++ strJoin sep (s₂ :: rest)

/-- `dict_to_style` from `04_style_dictionaries.py`: joins the
`f"(key): (value)"` fragments with `"; "` and appends a final `";"`. -/
def dict_to_style (style_dict : Styles) : String :=
  strJoin "; " (style_dict.map (fun kv => kv.1 ++ ": " ++ kv.2)) ++ ";"

/-- `merge_styles` from `04_style_dictionaries.py`: starts from an empty dict
and runs `result.update(d)` over the arguments in order. -/
def merge_styles (style_dicts : List Styles) : Styles :=
  style_dicts.foldl (fun result d => dictUpdateMany result d) []

/-- `CSSGenerator` from `06_css_class_generator.py`: its only state is the
insertion-ordered dict mapping class names to their style dicts. -/
structure CSSGenerator where
  classes : List (String × Styles)

/-- `CSSGenerator.add_class`: stores the styles under the name (plain dict
assignment, no validation) — the Python method then returns `self`. -/
def CSSGenerator.add_class (self : CSSGenerator) (name : String) (styles : Styles) : CSSGenerator :=
  { classes := dictUpdate self.classes name styles }

/-- `CSSGenerator.to_css`: builds one `.name \x7b prop: value; ...; \x7d` line per
registered class by appending to `css_lines` in registration order, then joins
the lines with a newline. -/
def CSSGenerator.to_css (self : CSSGenerator) : String :=
  strJoin "\n" (self.classes.foldl
    (fun css_lines cs =>
      css_lines ++
        ["." ++ cs.1 ++ " \x7b " ++
          strJoin "; " (cs.2.map (fun kv => kv.1 ++ ": " ++ kv.2)) ++ "; \x7d"])
    [])

/-- Modelled from the spec: escaping of the five markup-significant characters
(ampersand, angle brackets and both quotes). The Element Tree Builder this
belongs to is realized by the external fasthtml library and is not present
under the repository source. -/
def escapeChar (c : Char) : String :=
  if c = '&' then "&amp;"
  else if c = '<' then "&lt;"
  else if c = '>' then "&gt;"
  else if c.toNat = 34 then "&quot;"
  else if c.toNat = 39 then "&#x27;"
  else String.singleton c

/-- Modelled from the spec: escaping applied characterwise to a text leaf or
attribute value. -/
def escape (s : String) : String :=
  String.join (s.data.map escapeChar)

/-- Modelled from the spec: one markup node — an element with tag, ordered
attributes and ordered children, a plain text leaf, or a raw fragment. -/
inductive Node where
  | element : String → List (String × String) → List Node → Node
  | text : String → Node
  | raw : String → Node

mutual
/-- Modelled from the spec: `serialize` emits an opening tag with the
attributes in construction order (values escaped), the serialized children,
and a matching closing tag; text leaves are escaped, raw fragments pass
through verbatim. -/
def serialize : Node → String
  | .text s => escape s
  | .raw s => s
  | .element tag attrs children =>
    "<" ++ tag ++
      String.join (attrs.map (fun kv => " " ++ kv.1 ++ "=\"" ++ escape kv.2 ++ "\"")) ++
      ">" ++ serializeChildren children ++ "</" ++ tag ++ ">"

/-- Modelled from the spec: children are serialized left to right and
concatenated. -/
def serializeChildren : List Node → String
  | [] => ""
  | n :: rest => serialize n ++ serializeChildren rest
end

/-- `merge_styles` run against an explicit store of dicts, keeping the
mutation visible: `result` is allocated fresh at the end of the store, and
each loop iteration reads one input dict and writes only the `result` cell. -/
def heapMergeStyles (σ : List Styles) (refs : List Nat) : List Styles × Nat :=
  let r := σ.length
  let σ₁ := σ ++ [[]]
  (refs.foldl (fun s i => s.set r (dictUpdateMany (s.getD r []) (s.getD i []))) σ₁, r)

/-- `CSSGenerator.add_class` run against an explicit store of generator
states: the receiver's cell is updated in place and `return self` hands back
the receiver's reference. -/
def heapAddClass (σ : List (List (String × Styles))) (self : Nat) (name : String)
    (styles : Styles) : List (List (String × Styles)) × Nat :=
  (σ.set self (dictUpdate (σ.getD self []) name styles), self)

/-- Spec-side helper: the value of the last pair with the given key, if any
(for a list with unique keys this is the value of its single occurrence). -/
def listRightmost : Styles → String → Option String
  | [], _ => none
  | kv :: rest, k =>
    match listRightmost rest k with
    | some v => some v
    | none => if kv.1 = k then some kv.2 else none

/-- Spec-side helper: the value a key has in the rightmost input declaration
that contains it, across a list of declarations. -/
def rightmostAcross : List Styles → String → Option String
  | [], _ => none
  | d :: rest, k =>
    match rightmostAcross rest k with
    | some v => some v
    | none => dictLookup d k

/-- Spec-side helper: appends the keys of the second list to the first in
order, skipping keys already present (the first occurrence of a key fixes its
position). -/
def keysUnion (ks l : List String) : List String :=
  l.foldl (fun acc k => if k ∈ acc then acc else acc ++ [k]) ks

/-! ## Basic dictionary lemmas -/

theorem dictLookup_dictUpdate_self {α : Type} (l : List (String × α)) (k : String) (v : α) :
    dictLookup (dictUpdate l k v) k = some v := by
  induction l with
  | nil => simp [dictUpdate, dictLookup]
  | cons kv rest ih =>
    obtain ⟨k', v'⟩ := kv
    by_cases h : k' = k
    · simp [dictUpdate, h, dictLookup]
    · simp [dictUpdate, h, dictLookup, ih]

theorem dictLookup_dictUpdate_ne {α : Type} (l : List (String × α)) (k k₀ : String) (v : α)
    (hne : k₀ ≠ k) : dictLookup (dictUpdate l k v) k₀ = dictLookup l k₀ := by
  induction l with
  | nil => simp [dictUpdate, dictLookup, Ne.symm hne]
  | cons kv rest ih =>
    obtain ⟨k', v'⟩ := kv
    by_cases h : k' = k
    · simp [dictUpdate, h, dictLookup, Ne.symm hne]
    · simp [dictUpdate, h, dictLookup, ih]

theorem keys_dictUpdate {α : Type} (l : List (String × α)) (k : String) (v : α) :
    (dictUpdate l k v).map Prod.fst =
      if k ∈ l.map Prod.fst then l.map Prod.fst else l.map Prod.fst ++ [k] := by
  induction l with
  | nil => simp [dictUpdate]
  | cons kv rest ih =>
    obtain ⟨k', v'⟩ := kv
    by_cases h : k' = k
    · simp [dictUpdate, h]
    · by_cases hm : k ∈ rest.map Prod.fst
      · simp [dictUpdate, h, ih, hm, Ne.symm h]
      · simp [dictUpdate, h, ih, hm, Ne.symm h]

theorem nodup_keys_dictUpdate {α : Type} (l : List (String × α)) (k : String) (v : α)
    (h : (l.map Prod.fst).Nodup) : ((dictUpdate l k v).map Prod.fst).Nodup := by
  rw [keys_dictUpdate]
  by_cases hm : k ∈ l.map Prod.fst
  · simpa [hm] using h
  · simp only [hm, if_false]
    exact List.Nodup.append h (List.nodup_singleton k) (by simpa using hm)

theorem dictUpdate_dictUpdate {α : Type} (l : List (String × α)) (k : String) (v v' : α) :
    dictUpdate (dictUpdate l k v') k v = dictUpdate l k v := by
  induction l with
  | nil => simp [dictUpdate]
  | cons kv rest ih =>
    obtain ⟨k', v₀⟩ := kv
    by_cases h : k' = k
    · simp [dictUpdate, h]
    · simp [dictUpdate, h, ih]

theorem dictUpdate_comm {α : Type} (l : List (String × α)) (k k₁ : String) (v v₁ : α)
    (hne : k ≠ k₁) (hmem : k ∈ l.map Prod.fst) :
    dictUpdate (dictUpdate l k₁ v₁) k v = dictUpdate (dictUpdate l k v) k₁ v₁ := by
  induction l with
  | nil => simp at hmem
  | cons kv rest ih =>
    obtain ⟨k', v'⟩ := kv
    by_cases h1 : k' = k₁
    · subst h1
      have hk : ¬ k' = k := fun hh => hne hh.symm
      simp only [dictUpdate, if_pos rfl, if_neg hk]
      simp only [List.map_cons, List.mem_cons] at hmem
      rcases hmem with hmem | hmem
      · exact absurd hmem.symm hk
      · simp [dictUpdate, if_neg hk, if_pos rfl]
    · by_cases h2 : k' = k
      · simp [dictUpdate, h1, h2, hne]
      · simp only [List.map_cons, List.mem_cons] at hmem
        rcases hmem with hmem | hmem
        · exact absurd hmem.symm h2
        · simp [dictUpdate, h1, h2, ih hmem]

theorem mem_keys_dictUpdate {α : Type} (l : List (String × α)) (k : String) (v : α) :
    k ∈ (dictUpdate l k v).map Prod.fst := by
  rw [keys_dictUpdate]
  by_cases hm : k ∈ l.map Prod.fst <;> simp [hm]

theorem mem_keys_dictUpdate_of_mem {α : Type} (l : List (String × α)) (k k₀ : String) (v : α)
    (h : k₀ ∈ l.map Prod.fst) : k₀ ∈ (dictUpdate l k v).map Prod.fst := by
  rw [keys_dictUpdate]
  by_cases hm : k ∈ l.map Prod.fst <;> simp [hm, h]

theorem dictUpdate_of_not_mem {α : Type} (l : List (String × α)) (k : String) (v : α)
    (h : k ∉ l.map Prod.fst) : dictUpdate l k v = l ++ [(k, v)] := by
  induction l with
  | nil => simp [dictUpdate]
  | cons kv rest ih =>
    obtain ⟨k', v'⟩ := kv
    simp only [List.map_cons, List.mem_cons] at h
    push_neg at h
    simp [dictUpdate, Ne.symm h.1, ih h.2]

/-! ## Lemmas about sequences of updates -/

theorem dictUpdateMany_nil {α : Type} (X : List (String × α)) : dictUpdateMany X [] = X := rfl

theorem dictUpdateMany_cons {α : Type} (X : List (String × α)) (kv : String × α)
    (d : List (String × α)) :
    dictUpdateMany X (kv :: d) = dictUpdateMany (dictUpdate X kv.1 kv.2) d := rfl

theorem dictUpdateMany_append {α : Type} (X d₁ d₂ : List (String × α)) :
    dictUpdateMany X (d₁ ++ d₂) = dictUpdateMany (dictUpdateMany X d₁) d₂ :=
  List.foldl_append _ _ _ _

theorem nodup_keys_dictUpdateMany {α : Type} (d X : List (String × α))
    (h : (X.map Prod.fst).Nodup) : ((dictUpdateMany X d).map Prod.fst).Nodup := by
  induction d generalizing X with
  | nil => exact h
  | cons kv rest ih => exact ih _ (nodup_keys_dictUpdate _ _ _ h)

theorem dictUpdate_dictUpdateMany_of_mem {α : Type} (d X : List (String × α)) (k : String)
    (v : α) (hd : k ∉ d.map Prod.fst) (hX : k ∈ X.map Prod.fst) :
    dictUpdate (dictUpdateMany X d) k v = dictUpdateMany (dictUpdate X k v) d := by
  induction d generalizing X with
  | nil => rfl
  | cons kv rest ih =>
    simp only [List.map_cons, List.mem_cons] at hd
    push_neg at hd
    rw [dictUpdateMany_cons, dictUpdateMany_cons,
      ih _ hd.2 (mem_keys_dictUpdate_of_mem _ _ _ _ hX),
      dictUpdate_comm X k kv.1 v kv.2 hd.1 hX]

theorem dictUpdateMany_dictUpdate {α : Type} (d X : List (String × α)) (k : String) (v : α)
    (hnd : (d.map Prod.fst).Nodup) :
    dictUpdateMany X (dictUpdate d k v) = dictUpdate (dictUpdateMany X d) k v := by
  induction d generalizing X with
  | nil => rfl
  | cons kv rest ih =>
    obtain ⟨k', v'⟩ := kv
    simp only [List.map_cons, List.nodup_cons] at hnd
    by_cases h : k' = k
    · subst h
      rw [show dictUpdate ((k', v') :: rest) k' v = (k', v) :: rest by simp [dictUpdate]]
      rw [dictUpdateMany_cons, dictUpdateMany_cons]
      rw [dictUpdate_dictUpdateMany_of_mem rest (dictUpdate X k' v') k' v hnd.1
        (mem_keys_dictUpdate _ _ _), dictUpdate_dictUpdate]
    · rw [show dictUpdate ((k', v') :: rest) k v = (k', v') :: dictUpdate rest k v by
        simp [dictUpdate, h]]
      rw [dictUpdateMany_cons, dictUpdateMany_cons]
      exact ih _ hnd.2

theorem dictUpdateMany_assoc {α : Type} (Z Y X : List (String × α))
    (hY : (Y.map Prod.fst).Nodup) :
    dictUpdateMany X (dictUpdateMany Y Z) = dictUpdateMany (dictUpdateMany X Y) Z := by
  induction Z generalizing Y with
  | nil => rfl
  | cons kv rest ih =>
    rw [dictUpdateMany_cons, dictUpdateMany_cons,
      ih (dictUpdate Y kv.1 kv.2) (nodup_keys_dictUpdate _ _ _ hY),
      dictUpdateMany_dictUpdate Y X kv.1 kv.2 hY]

theorem dictUpdateMany_eq_append {α : Type} (M X : List (String × α))
    (h : ((X ++ M).map Prod.fst).Nodup) : dictUpdateMany X M = X ++ M := by
  induction M generalizing X with
  | nil => simp [dictUpdateMany]
  | cons kv rest ih =>
    have h' : (X.map Prod.fst ++ (kv.1 :: rest.map Prod.fst)).Nodup := by simpa using h
    have hk : kv.1 ∉ X.map Prod.fst := fun hmem =>
      (List.disjoint_of_nodup_append h') hmem (by simp)
    have h₂ : (((X ++ [kv]) ++ rest).map Prod.fst).Nodup := by
      simpa [List.append_assoc] using h
    rw [dictUpdateMany_cons, dictUpdate_of_not_mem _ _ _ hk]
    calc dictUpdateMany (X ++ [(kv.1, kv.2)]) rest
        = (X ++ [kv]) ++ rest := ih _ h₂
      _ = X ++ kv :: rest := by simp

theorem foldl_dictUpdateMany_eq {α : Type} (ds : List (List (String × α)))
    (X : List (String × α)) :
    ds.foldl (fun result d => dictUpdateMany result d) X = dictUpdateMany X ds.flatten := by
  induction ds generalizing X with
  | nil => rfl
  | cons d rest ih => rw [List.foldl_cons, ih, List.flatten_cons, dictUpdateMany_append]

theorem merge_styles_eq_flatten (ds : List Styles) :
    merge_styles ds = dictUpdateMany [] ds.flatten := foldl_dictUpdateMany_eq ds []

/-! ## Lookup and key-order characterizations -/

theorem dictLookup_dictUpdateMany (d X : Styles) (k : String) :
    dictLookup (dictUpdateMany X d) k =
      match listRightmost d k with
      | some v => some v
      | none => dictLookup X k := by
  induction d generalizing X with
  | nil => rfl
  | cons kv rest ih =>
    rw [dictUpdateMany_cons, ih]
    cases hlr : listRightmost rest k with
    | some v => simp [listRightmost, hlr]
    | none =>
      simp only [listRightmost, hlr]
      by_cases hk : kv.1 = k
      · subst hk
        simp [dictLookup_dictUpdate_self]
      · simp [hk, dictLookup_dictUpdate_ne _ _ _ _ (Ne.symm hk)]

theorem listRightmost_append (l₁ l₂ : Styles) (k : String) :
    listRightmost (l₁ ++ l₂) k =
      match listRightmost l₂ k with
      | some v => some v
      | none => listRightmost l₁ k := by
  induction l₁ with
  | nil => cases h : listRightmost l₂ k <;> simp [listRightmost, h]
  | cons kv rest ih =>
    rw [List.cons_append]
    cases h : listRightmost l₂ k with
    | some v => simp only [listRightmost, ih, h]
    | none => simp only [listRightmost, ih, h]

theorem listRightmost_eq_none (d : Styles) (k : String) (h : k ∉ d.map Prod.fst) :
    listRightmost d k = none := by
  induction d with
  | nil => rfl
  | cons kv rest ih =>
    simp only [List.map_cons, List.mem_cons] at h
    push_neg at h
    simp [listRightmost, ih h.2, Ne.symm h.1]

theorem listRightmost_eq_dictLookup (d : Styles) (k : String)
    (h : (d.map Prod.fst).Nodup) : listRightmost d k = dictLookup d k := by
  induction d with
  | nil => rfl
  | cons kv rest ih =>
    simp only [List.map_cons, List.nodup_cons] at h
    by_cases hk : kv.1 = k
    · subst hk
      have hnone : listRightmost rest kv.1 = none :=
        listRightmost_eq_none rest kv.1 h.1
      simp [listRightmost, dictLookup, hnone]
    · rw [show dictLookup (kv :: rest) k = dictLookup rest k by simp [dictLookup, hk],
        ← ih h.2]
      cases hlr : listRightmost rest k <;> simp [listRightmost, hk, hlr]

theorem rightmostAcross_eq_listRightmost (ds : List Styles) (k : String)
    (h : ∀ d ∈ ds, (d.map Prod.fst).Nodup) :
    rightmostAcross ds k = listRightmost ds.flatten k := by
  induction ds with
  | nil => rfl
  | cons d rest ih =>
    have hd : (d.map Prod.fst).Nodup := h d (by simp)
    have hrest : ∀ d' ∈ rest, (d'.map Prod.fst).Nodup := fun d' hd' => h d' (by simp [hd'])
    rw [List.flatten_cons, listRightmost_append]
    simp only [rightmostAcross, ih hrest, listRightmost_eq_dictLookup d k hd]

theorem keysUnion_cons (ks : List String) (k : String) (l : List String) :
    keysUnion ks (k :: l) = keysUnion (if k ∈ ks then ks else ks ++ [k]) l := rfl

theorem keys_dictUpdateMany {α : Type} (d X : List (String × α)) :
    (dictUpdateMany X d).map Prod.fst = keysUnion (X.map Prod.fst) (d.map Prod.fst) := by
  induction d generalizing X with
  | nil => rfl
  | cons kv rest ih =>
    rw [dictUpdateMany_cons, ih, List.map_cons, keysUnion_cons, keys_dictUpdate]

/-! ## String joining lemmas -/

theorem strJoin_cons (sep s : String) (l : List String) (h : l ≠ []) :
    strJoin sep (s :: l) = s ++ sep ++ strJoin sep l := by
  cases l with
  | nil => exact absurd rfl h
  | cons s₂ rest => rfl

theorem strJoin_push_semi (l : List String) (h : l ≠ []) :
    strJoin "; " l ++ ";" = strJoin " " (l.map (fun s => s ++ ";")) := by
  induction l with
  | nil => exact absurd rfl h
  | cons s rest ih =>
    cases rest with
    | nil => rfl
    | cons s₂ rest₂ =>
      rw [strJoin_cons "; " s _ (by simp), List.map_cons,
        strJoin_cons " " (s ++ ";") _ (by simp), ← ih (by simp)]
      have hsw : (";" : String) ++ " " = "; " := rfl
      have hsep : s ++ ";" ++ " " = s ++ "; " := by rw [String.append_assoc, hsw]
      rw [← hsep, String.append_assoc]

/-! ## Store access lemmas for the heap models -/

theorem list_getD_append_lt {α : Type} (l m : List α) (i : Nat) (d : α) (h : i < l.length) :
    (l ++ m).getD i d = l.getD i d := by
  induction l generalizing i with
  | nil => simp at h
  | cons a rest ih =>
    cases i with
    | zero => rfl
    | succ n =>
      show (rest ++ m).getD n d = rest.getD n d
      exact ih n (by simpa using h)

theorem list_getD_append_len {α : Type} (l : List α) (a d : α) :
    (l ++ [a]).getD l.length d = a := by
  induction l with
  | nil => rfl
  | cons b rest ih =>
    show (rest ++ [a]).getD rest.length d = a
    exact ih

theorem list_set_append_len {α : Type} (l : List α) (a b : α) :
    (l ++ [a]).set l.length b = l ++ [b] := by
  induction l with
  | nil => rfl
  | cons c rest ih =>
    show c :: (rest ++ [a]).set rest.length b = c :: (rest ++ [b])
    rw [ih]

theorem list_getD_set_self {α : Type} (l : List α) (i : Nat) (a d : α) (h : i < l.length) :
    (l.set i a).getD i d = a := by
  induction l generalizing i with
  | nil => simp at h
  | cons c rest ih =>
    cases i with
    | zero => rfl
    | succ n =>
      show (rest.set n a).getD n d = a
      exact ih n (by simpa using h)

theorem heapMergeStyles_loop (refs : List Nat) (σ : List Styles) (acc : Styles)
    (h : ∀ j ∈ refs, j < σ.length) :
    refs.foldl
        (fun s i => s.set σ.length (dictUpdateMany (s.getD σ.length []) (s.getD i [])))
        (σ ++ [acc])
      = σ ++ [refs.foldl (fun a i => dictUpdateMany a (σ.getD i [])) acc] := by
  induction refs generalizing acc with
  | nil => rfl
  | cons i rest ih =>
    have hi : i < σ.length := h i (by simp)
    have hrest : ∀ j ∈ rest, j < σ.length := fun j hj => h j (by simp [hj])
    rw [List.foldl_cons, list_getD_append_len, list_getD_append_lt _ _ _ _ hi,
      list_set_append_len, List.foldl_cons, ih _ hrest]

/-! ## Accumulator and filter lemmas -/

theorem foldl_append_map {α β : Type} (l : List α) (f : α → β) (acc : List β) :
    l.foldl (fun lines a => lines ++ [f a]) acc = acc ++ l.map f := by
  induction l generalizing acc with
  | nil => simp
  | cons a rest ih => simp [ih]

theorem filter_key_eq_nil {α : Type} (l : List (String × α)) (x : String)
    (h : x ∉ l.map Prod.fst) : l.filter (fun cs => cs.1 == x) = [] := by
  induction l with
  | nil => rfl
  | cons kv rest ih =>
    simp only [List.map_cons, List.mem_cons] at h
    push_neg at h
    simp [List.filter_cons, Ne.symm h.1, ih h.2]

theorem filter_key_dictUpdate {α : Type} (l : List (String × α)) (x : String) (v : α)
    (h : (l.map Prod.fst).Nodup) :
    (dictUpdate l x v).filter (fun cs => cs.1 == x) = [(x, v)] := by
  induction l with
  | nil => simp [dictUpdate]
  | cons kv rest ih =>
    obtain ⟨k', v'⟩ := kv
    simp only [List.map_cons, List.nodup_cons] at h
    by_cases hk : k' = x
    · subst hk
      rw [show dictUpdate ((k', v') :: rest) k' v = (k', v) :: rest by simp [dictUpdate]]
      simp [List.filter_cons, filter_key_eq_nil rest k' h.1]
    · rw [show dictUpdate ((k', v') :: rest) x v = (k', v') :: dictUpdate rest x v by
        simp [dictUpdate, hk]]
      simp [List.filter_cons, hk, ih h.2]

/-! ## Claim theorems -/

/-- C1 (counterexample): the claim that `dict_to_style` maps the empty
declaration to the empty string is false — the code appends an unconditional
trailing semicolon, so the result is not `""`. -/
theorem dict_to_style_empty_not_empty_string : dict_to_style [] ≠ "" := by decide

/-- C1 (amended): for the empty style declaration, `dict_to_style` returns the
one-character string made of a single semicolon. -/
theorem dict_to_style_empty : dict_to_style [] = ";" := rfl

/-- C2 (counterexample): `add_class` with the empty class name does not fail —
it succeeds and registers the rule set under the empty name, so no
`InvalidClassNameError` behaviour exists in the code. -/
theorem add_class_empty_name_registers :
    dictLookup ((CSSGenerator.mk []).add_class "" [("color", "red")]).classes ""
      = some [("color", "red")] := rfl

/-- C2 (amended): `add_class` performs no validation at all — for every name,
including the empty string, the call succeeds and registers the rule set. -/
theorem add_class_always_registers (g : CSSGenerator) (name : String) (styles : Styles) :
    dictLookup (g.add_class name styles).classes name = some styles :=
  dictLookup_dictUpdate_self g.classes name styles

/-- C3: serializing a `p` element whose style attribute is the inline
serialization of the two-property declaration color:red, font-size:16px and
whose single child is the text leaf `Hi & bye` produces exactly the expected
markup string, with `dict_to_style` deciding the inline style part and the
serializer escaping the ampersand. -/
theorem serialize_end_to_end :
    serialize (Node.element "p"
        [("style", dict_to_style [("color", "red"), ("font-size", "16px")])]
        [Node.text "Hi & bye"])
      = "<p style=\"color: red; font-size: 16px;\">Hi &amp; bye</p>" := rfl

/-- C4: `merge_styles` of zero declarations is the empty declaration; for
inputs with unique keys (Python dicts), every key is bound in the result to
the value it has in the rightmost input that contains it, and the result's
keys are the concatenation of the inputs' keys in argument order with the
first occurrence of a key fixing its position. -/
theorem merge_styles_rightmost_wins (ds : List Styles)
    (h : ∀ d ∈ ds, (d.map Prod.fst).Nodup) :
    merge_styles [] = [] ∧
    (∀ k, dictLookup (merge_styles ds) k = rightmostAcross ds k) ∧
    (merge_styles ds).map Prod.fst = keysUnion [] ((ds.flatten).map Prod.fst) := by
  refine ⟨rfl, ?_, ?_⟩
  · intro k
    rw [merge_styles_eq_flatten, dictLookup_dictUpdateMany,
      rightmostAcross_eq_listRightmost ds k h]
    cases hlr : listRightmost ds.flatten k <;> simp [hlr, dictLookup]
  · rw [merge_styles_eq_flatten, keys_dictUpdateMany]
    rfl

theorem merge_styles_rightmost_wins_witness :
    (∀ d ∈ ([[("color", "red"), ("padding", "4px")], [("color", "blue")]] : List Styles),
      (d.map Prod.fst).Nodup) ∧
    dictLookup (merge_styles [[("color", "red"), ("padding", "4px")], [("color", "blue")]])
        "color"
      = rightmostAcross [[("color", "red"), ("padding", "4px")], [("color", "blue")]]
        "color" :=
  ⟨by decide, (merge_styles_rightmost_wins _ (by decide)).2.1 "color"⟩

/-- C5: merging is associative in effect, including the resulting key order —
merging A with B and then the result with C, or A with the merge of B and C,
gives exactly the same declaration as merging A, B, C in one call. -/
theorem merge_styles_assoc (A B C : Styles) :
    merge_styles [merge_styles [A, B], C] = merge_styles [A, B, C] ∧
    merge_styles [A, merge_styles [B, C]] = merge_styles [A, B, C] := by
  have hAB : merge_styles [A, B] = dictUpdateMany [] (A ++ B) := by
    rw [merge_styles_eq_flatten]; simp
  have hBC : merge_styles [B, C] = dictUpdateMany [] (B ++ C) := by
    rw [merge_styles_eq_flatten]; simp
  have h2 : ∀ X Y : Styles,
      merge_styles [X, Y] = dictUpdateMany (dictUpdateMany [] X) Y := by
    intro X Y
    rw [merge_styles_eq_flatten]
    simp only [List.flatten_cons, List.flatten_nil, List.append_nil]
    rw [dictUpdateMany_append]
  have hM : dictUpdateMany ([] : Styles) (dictUpdateMany [] (A ++ B))
      = dictUpdateMany [] (A ++ B) := by
    have hn : ((dictUpdateMany ([] : Styles) (A ++ B)).map Prod.fst).Nodup :=
      nodup_keys_dictUpdateMany _ _ (by simp)
    have hx := dictUpdateMany_eq_append (dictUpdateMany ([] : Styles) (A ++ B)) []
      (by simpa using hn)
    simpa using hx
  have hABC : merge_styles [A, B, C]
      = dictUpdateMany (dictUpdateMany (dictUpdateMany [] A) B) C := by
    rw [merge_styles_eq_flatten]
    simp only [List.flatten_cons, List.flatten_nil, List.append_nil]
    rw [dictUpdateMany_append, dictUpdateMany_append]
  constructor
  · calc merge_styles [merge_styles [A, B], C]
        = dictUpdateMany (dictUpdateMany [] (merge_styles [A, B])) C := h2 _ _
      _ = dictUpdateMany (dictUpdateMany [] (dictUpdateMany [] (A ++ B))) C := by rw [hAB]
      _ = dictUpdateMany (dictUpdateMany [] (A ++ B)) C := by rw [hM]
      _ = dictUpdateMany (dictUpdateMany (dictUpdateMany [] A) B) C := by
          rw [dictUpdateMany_append]
      _ = merge_styles [A, B, C] := hABC.symm
  · calc merge_styles [A, merge_styles [B, C]]
        = dictUpdateMany (dictUpdateMany [] A) (merge_styles [B, C]) := h2 _ _
      _ = dictUpdateMany (dictUpdateMany [] A) (dictUpdateMany [] (B ++ C)) := by rw [hBC]
      _ = dictUpdateMany (dictUpdateMany (dictUpdateMany [] A) []) (B ++ C) :=
          dictUpdateMany_assoc (B ++ C) [] _ (by simp)
      _ = dictUpdateMany (dictUpdateMany [] A) (B ++ C) := by rw [dictUpdateMany_nil]
      _ = dictUpdateMany (dictUpdateMany (dictUpdateMany [] A) B) C := by
          rw [dictUpdateMany_append]
      _ = merge_styles [A, B, C] := hABC.symm

/-- C6: `to_css` serializes all registered rule sets in registration order,
one dot-name block per class with the properties rendered in insertion order
by the same rule as inline styles, and joins the blocks with newlines. -/
theorem to_css_blocks (g : CSSGenerator) :
    g.to_css = strJoin "\n" (g.classes.map
      (fun cs => "." ++ cs.1 ++ " \x7b " ++ dict_to_style cs.2 ++ " \x7d")) := by
  have hfun : (fun cs : String × Styles =>
        "." ++ cs.1 ++ " \x7b " ++
          strJoin "; " (cs.2.map (fun kv => kv.1 ++ ": " ++ kv.2)) ++ "; \x7d")
      = (fun cs : String × Styles => "." ++ cs.1 ++ " \x7b " ++ dict_to_style cs.2 ++ " \x7d") := by
    funext cs
    simp only [dict_to_style, String.append_assoc]
    rw [show (";" : String) ++ " \x7d" = "; \x7d" from rfl]
  unfold CSSGenerator.to_css
  rw [foldl_append_map, List.nil_append, hfun]

/-- C7: re-registering an existing class name overwrites its rule set
silently — after adding D1 and then D2 under the same name, the generator is
in the same state as if only D2 had been added, its class table holds exactly
one entry for that name (bound to D2), and the stylesheet output coincides
with the D2-only one. -/
theorem add_class_overwrites (g : CSSGenerator) (x : String) (D1 D2 : Styles)
    (h : (g.classes.map Prod.fst).Nodup) :
    (g.add_class x D1).add_class x D2 = g.add_class x D2 ∧
    ((g.add_class x D1).add_class x D2).classes.filter (fun cs => cs.1 == x) = [(x, D2)] ∧
    ((g.add_class x D1).add_class x D2).to_css = (g.add_class x D2).to_css := by
  have h1 : (g.add_class x D1).add_class x D2 = g.add_class x D2 := by
    unfold CSSGenerator.add_class
    rw [dictUpdate_dictUpdate]
  refine ⟨h1, ?_, by rw [h1]⟩
  rw [h1]
  show (dictUpdate g.classes x D2).filter (fun cs => cs.1 == x) = [(x, D2)]
  exact filter_key_dictUpdate g.classes x D2 h

theorem add_class_overwrites_witness :
    ((CSSGenerator.mk [("base", [("margin", "0")])]).classes.map Prod.fst).Nodup ∧
    ((CSSGenerator.mk [("base", [("margin", "0")])]).add_class "x"
        [("color", "red")]).add_class "x" [("color", "blue")]
      = (CSSGenerator.mk [("base", [("margin", "0")])]).add_class "x" [("color", "blue")] :=
  ⟨by decide, (add_class_overwrites _ "x" _ _ (by decide)).1⟩

/-- C8: for every non-empty declaration, `dict_to_style` renders the
properties in insertion order, each as `prop: value` followed by a semicolon
including the last one, with single spaces between the fragments. -/
theorem dict_to_style_nonempty_shape (d : Styles) (h : d ≠ []) :
    dict_to_style d = strJoin " " (d.map (fun kv => kv.1 ++ ": " ++ kv.2 ++ ";")) := by
  have hmap : d.map (fun kv : String × String => kv.1 ++ ": " ++ kv.2) ≠ [] := by
    simpa using h
  unfold dict_to_style
  rw [strJoin_push_semi _ hmap, List.map_map]
  rfl

theorem dict_to_style_nonempty_shape_witness :
    ([("color", "red"), ("font-size", "16px")] : Styles) ≠ [] ∧
    dict_to_style [("color", "red"), ("font-size", "16px")]
      = strJoin " " (([("color", "red"), ("font-size", "16px")] : Styles).map
          (fun kv => kv.1 ++ ": " ++ kv.2 ++ ";")) :=
  ⟨by decide, dict_to_style_nonempty_shape _ (by decide)⟩

/-- C9: `merge_styles` never mutates its inputs — run against an explicit
store, every pre-existing dict cell is unchanged by the call, the returned
reference is fresh (one past the old store), and the freshly built dict holds
exactly the pure merge of the input contents. -/
theorem merge_styles_no_mutation (σ : List Styles) (refs : List Nat)
    (h : ∀ j ∈ refs, j < σ.length) :
    (∀ i, i < σ.length → (heapMergeStyles σ refs).1.getD i [] = σ.getD i []) ∧
    (heapMergeStyles σ refs).2 = σ.length ∧
    (heapMergeStyles σ refs).1.getD σ.length []
      = merge_styles (refs.map (fun i => σ.getD i [])) := by
  have hfst : (heapMergeStyles σ refs).1
      = σ ++ [refs.foldl (fun a i => dictUpdateMany a (σ.getD i [])) []] :=
    heapMergeStyles_loop refs σ [] h
  refine ⟨?_, rfl, ?_⟩
  · intro i hi
    rw [hfst, list_getD_append_lt _ _ _ _ hi]
  · rw [hfst, list_getD_append_len]
    show _ = (refs.map (fun i => σ.getD i [])).foldl
      (fun result d => dictUpdateMany result d) []
    rw [List.foldl_map]

theorem merge_styles_no_mutation_witness :
    (∀ j ∈ [0, 1],
      j < ([[("color", "red")], [("color", "blue"), ("margin", "0")]] : List Styles).length) ∧
    (heapMergeStyles [[("color", "red")], [("color", "blue"), ("margin", "0")]] [0, 1]).1.getD 0 []
      = ([[("color", "red")], [("color", "blue"), ("margin", "0")]] : List Styles).getD 0 [] :=
  ⟨by decide, (merge_styles_no_mutation _ [0, 1] (by decide)).1 0 (by decide)⟩

/-- C10: `add_class` returns the receiver itself — in the store model the
returned reference equals the receiver's reference, and a chained second call
through the returned reference keeps acting on the very same instance. -/
theorem heapAddClass_returns_self (σ : List (List (String × Styles))) (i : Nat)
    (n₁ n₂ : String) (s₁ s₂ : Styles) (h : i < σ.length) :
    (heapAddClass σ i n₁ s₁).2 = i ∧
    (heapAddClass (heapAddClass σ i n₁ s₁).1 (heapAddClass σ i n₁ s₁).2 n₂ s₂).1.getD i []
      = dictUpdate (dictUpdate (σ.getD i []) n₁ s₁) n₂ s₂ := by
  refine ⟨rfl, ?_⟩
  show ((σ.set i (dictUpdate (σ.getD i []) n₁ s₁)).set i
      (dictUpdate ((σ.set i (dictUpdate (σ.getD i []) n₁ s₁)).getD i []) n₂ s₂)).getD i []
    = dictUpdate (dictUpdate (σ.getD i []) n₁ s₁) n₂ s₂
  rw [list_getD_set_self _ _ _ _ (by simpa using h), list_getD_set_self _ _ _ _ h]

theorem heapAddClass_returns_self_witness :
    0 < ([[("old", [("color", "red")])]] : List (List (String × Styles))).length ∧
    (heapAddClass [[("old", [("color", "red")])]] 0 "a" [("padding", "1px")]).2 = 0 :=
  ⟨by decide,
    (heapAddClass_returns_self _ 0 "a" "b" [("padding", "1px")] [("margin", "2px")]
      (by decide)).1⟩
